import Mathlib

/-!
Verification development for the fwbackups backup engine.

The repository ships a thin Qt presentation shell
(src/interface/qt4/fwbackups.h): two widget classes whose public slots are
wired to the backup-set scheduling and execution engine described by the
design document. The shell's declarations are embedded directly from the
header; the engine components (Set Store, Scheduler, Execution Engine,
Restore Coordinator, retention sweep) are not part of the visible source,
so they are modelled from the design document, each definition carrying a
doc comment saying which part of the document it follows.
-/

namespace Fwbackups

/-! ## Presentation shell, embedded from src/interface/qt4/fwbackups.h -/

/-- A C++ member-function declaration: name, return type, parameter types. -/
structure SlotDecl where
  slotName : String
  retType : String
  paramTypes : List String
deriving DecidableEq, Repr

/-- The public slots of class fwbackupsApp, as declared in
src/interface/qt4/fwbackups.h lines 33-47: every one is declared
`void name();`. -/
def fwbackupsAppPublicSlots : List SlotDecl :=
  [ ⟨"cleanup", "void", []⟩,
    ⟨"on_actionAbout_activated", "void", []⟩,
    ⟨"on_actionQuit_activated", "void", []⟩,
    ⟨"on_newSetButton_clicked", "void", []⟩,
    ⟨"switch_overview", "void", []⟩,
    ⟨"switch_backupsets", "void", []⟩,
    ⟨"show_one_time_backup", "void", []⟩,
    ⟨"show_restore", "void", []⟩,
    ⟨"switch_operations", "void", []⟩,
    ⟨"switch_logviewer", "void", []⟩,
    ⟨"show_preferences", "void", []⟩,
    ⟨"on_saveLogButton_clicked", "void", []⟩,
    ⟨"on_clearLogButton_clicked", "void", []⟩,
    ⟨"on_refreshLogButton_clicked", "void", []⟩ ]

/-- The public slots of class prefsWindow, as declared in
src/interface/qt4/fwbackups.h lines 57-58: the single slot
`void on_closeButton_clicked();`. -/
def prefsWindowPublicSlots : List SlotDecl :=
  [ ⟨"on_closeButton_clicked", "void", []⟩ ]

/-! ## Data model, modelled from the design document §3 -/

/-- Modelled from the spec: §3 ScheduleDescriptor, a variant over
Disabled, RunOnceAt(timestamp) and Recurring(interval). -/
inductive ScheduleDescriptor where
  | Disabled : ScheduleDescriptor
  | RunOnceAt : Nat → ScheduleDescriptor
  | Recurring : Nat → ScheduleDescriptor
deriving DecidableEq, Repr

/-- Modelled from the spec: §3 BackupSet, a named configuration with an
ordered sequence of source paths, a destination descriptor, a schedule,
a retention count and an enabled flag. -/
structure BackupSet where
  name : String
  sources : List String
  destination : String
  schedule : ScheduleDescriptor
  retentionCount : Nat
  enabled : Bool
deriving DecidableEq, Repr

/-- Modelled from the spec: §3 JobRecord outcome, Success or
PartialFailure with the failed source paths and reasons or Fatal. -/
inductive Outcome where
  | Success : Outcome
  | PartialFailure : List (String × String) → Outcome
  | Fatal : String → Outcome
deriving DecidableEq, Repr

/-- Modelled from the spec: §3 JobRecord, the immutable record of one job:
the set name it ran for, its outcome and the bytes transferred. -/
structure JobRecord where
  setName : String
  outcome : Outcome
  bytes : Nat
deriving DecidableEq, Repr

/-! ## Set Store, modelled from the design document §4.1 -/

/-- Modelled from the spec: §4.1 Set Store error cases. -/
inductive StoreError where
  | DuplicateName : StoreError
  | InvalidSet : StoreError
  | NotFound : StoreError
deriving DecidableEq, Repr

/-- The Set Store state: the stored BackupSet definitions in creation
order. -/
abbrev SetStore := List BackupSet

/-- Modelled from the spec: §4.1, create(set) fails with DuplicateName if
the name exists or InvalidSet if the source list is empty, and on failure
the store is unchanged; on success the definition is stored. The missing
engine source is not in the repository. -/
def create (st : SetStore) (s : BackupSet) : Except StoreError Unit × SetStore :=
  if st.any (fun t => t.name == s.name) then (Except.error StoreError.DuplicateName, st)
  else if s.sources.isEmpty then (Except.error StoreError.InvalidSet, st)
  else (Except.ok (), st ++ [s])

/-- Modelled from the spec: §6 listSets, returning the stored
definitions. -/
def listSets (st : SetStore) : List BackupSet := st

/-! ## Theorems for the claims about the shell and the Set Store -/

/-- C10: every public slot declared by the presentation shell - all
fourteen slots of fwbackupsApp, among them show_one_time_backup,
show_restore, switch_operations and the log save/clear/refresh slots, and
the single close slot of prefsWindow - is a void member function taking no
arguments, so no request payload crosses the UI boundary through these
slots. -/
theorem ui_slots_carry_no_payload :
    (∀ s ∈ fwbackupsAppPublicSlots, s.retType = "void" ∧ s.paramTypes = []) ∧
    (∀ s ∈ prefsWindowPublicSlots, s.retType = "void" ∧ s.paramTypes = []) ∧
    (⟨"show_one_time_backup", "void", []⟩ : SlotDecl) ∈ fwbackupsAppPublicSlots ∧
    (⟨"show_restore", "void", []⟩ : SlotDecl) ∈ fwbackupsAppPublicSlots ∧
    (⟨"switch_operations", "void", []⟩ : SlotDecl) ∈ fwbackupsAppPublicSlots ∧
    (⟨"on_saveLogButton_clicked", "void", []⟩ : SlotDecl) ∈ fwbackupsAppPublicSlots ∧
    (⟨"on_clearLogButton_clicked", "void", []⟩ : SlotDecl) ∈ fwbackupsAppPublicSlots ∧
    (⟨"on_refreshLogButton_clicked", "void", []⟩ : SlotDecl) ∈ fwbackupsAppPublicSlots ∧
    fwbackupsAppPublicSlots.length = 14 ∧
    prefsWindowPublicSlots.length = 1 := by
  decide

/-- C4: create fails with DuplicateName when the name already exists and
with InvalidSet when the source list is empty, in both cases leaving the
store unchanged; for a valid definition, create followed by listSets
returns exactly that definition (the stored sets are the old ones plus the
new one, and looking the new name up retrieves the definition
unchanged). -/
theorem create_contract (st : SetStore) (s : BackupSet) :
    ((∃ t ∈ st, t.name = s.name) →
      create st s = (Except.error StoreError.DuplicateName, st)) ∧
    ((¬ ∃ t ∈ st, t.name = s.name) → s.sources = [] →
      create st s = (Except.error StoreError.InvalidSet, st)) ∧
    ((¬ ∃ t ∈ st, t.name = s.name) → s.sources ≠ [] →
      listSets (create st s).2 = st ++ [s] ∧
      (listSets (create st s).2).find? (fun t => t.name == s.name) = some s) := by
  refine ⟨?_, ?_, ?_⟩
  · rintro ⟨t, ht, hname⟩
    have hany : st.any (fun t => t.name == s.name) = true := by
      exact List.any_eq_true.mpr ⟨t, ht, by simp [hname]⟩
    simp [create, hany]
  · intro hdup hempty
    have hany : st.any (fun t => t.name == s.name) = false := by
      simp only [List.any_eq_false]
      intro t ht
      simp only [beq_iff_eq]
      exact fun h => hdup ⟨t, ht, h⟩
    simp [create, hany, hempty]
  · intro hdup hne
    have hany : st.any (fun t => t.name == s.name) = false := by
      simp only [List.any_eq_false]
      intro t ht
      simp only [beq_iff_eq]
      exact fun h => hdup ⟨t, ht, h⟩
    have hempty : s.sources.isEmpty = false := by
      cases hs : s.sources with
      | nil => exact absurd hs hne
      | cons a l => simp [hs]
    constructor
    · simp [create, hany, hempty, listSets]
    · simp only [create, hany, hempty, listSets, Bool.false_eq_true, if_false]
      rw [List.find?_append]
      have hfind : st.find? (fun t => t.name == s.name) = none := by
        rw [List.find?_eq_none]
        intro t ht
        simp only [beq_iff_eq]
        exact fun h => hdup ⟨t, ht, h⟩
      simp [hfind]

/-- C4 witness: a concrete run of the contract on a one-element store. -/
theorem create_contract_witness :
    listSets (create [] ⟨"docs", ["/home"], "/backup", ScheduleDescriptor.Disabled, 2, true⟩).2 =
      [⟨"docs", ["/home"], "/backup", ScheduleDescriptor.Disabled, 2, true⟩] := by
  have h := create_contract [] ⟨"docs", ["/home"], "/backup", ScheduleDescriptor.Disabled, 2, true⟩
  have h3 := h.2.2 (by simp) (by simp)
  simpa using h3.1

/-! ## Scheduler, modelled from the design document §4.2 -/

/-- Modelled from the spec: §4.2, the scheduler's per-set schedule state:
a RunOnceAt(t) still pending, a Recurring schedule with its interval and
stored next due time, or disabled. The missing engine source is not in
the repository. -/
inductive SchedState where
  | disabled : SchedState
  | runOnceAt : Nat → SchedState
  | recurring : Nat → Nat → SchedState
deriving DecidableEq, Repr

/-- Modelled from the spec: §4.2, a schedule is due when its (one-time or
stored next) due time has passed; a disabled schedule is never due. -/
def isDue (now : Nat) (s : SchedState) : Bool :=
  match s with
  | SchedState.disabled => false
  | SchedState.runOnceAt t => t ≤ now
  | SchedState.recurring _ next => next ≤ now

/-- Modelled from the spec: §4.2, the state transition applied to a due
schedule before dispatch: RunOnceAt is disabled atomically, Recurring
stores its next due time. -/
def consume (s : SchedState) : SchedState :=
  match s with
  | SchedState.disabled => SchedState.disabled
  | SchedState.runOnceAt _ => SchedState.disabled
  | SchedState.recurring i next => SchedState.recurring i (next + i)

/-- Modelled from the spec: §4.2, one scheduler tick at time now: every
due set has its schedule consumed before dispatch, and the dispatched run
requests are ordered by ascending set name for determinism. -/
def tick (now : Nat) (es : List (String × SchedState)) :
    List String × List (String × SchedState) :=
  (((es.filter (fun e => isDue now e.2)).map Prod.fst).insertionSort (· ≤ ·),
   es.map (fun e => if isDue now e.2 then (e.1, consume e.2) else e))

/-- A sequence of scheduler ticks at the given times, accumulating all
dispatched run requests. -/
def runTicks : List Nat → List (String × SchedState) →
    List String × List (String × SchedState)
  | [], es => ([], es)
  | now :: rest, es =>
    ((tick now es).1 ++ (runTicks rest (tick now es).2).1,
     (runTicks rest (tick now es).2).2)

theorem tick_names (now : Nat) (es : List (String × SchedState)) :
    (tick now es).2.map Prod.fst = es.map Prod.fst := by
  simp only [tick, List.map_map]
  apply List.map_congr_left
  intro e _
  by_cases h : isDue now e.2 = true <;> simp [h]

theorem count_dueNames (now : Nat) (n : String) (s : SchedState) :
    ∀ es : List (String × SchedState), (es.map Prod.fst).Nodup → (n, s) ∈ es →
    ((es.filter (fun e => isDue now e.2)).map Prod.fst).count n =
      if isDue now s then 1 else 0 := by
  intro es
  induction es with
  | nil => intro _ hm; exact absurd hm (List.not_mem_nil _)
  | cons e rest ih =>
    intro hn hm
    have hn2 : (rest.map Prod.fst).Nodup := (List.nodup_cons.mp hn).2
    have hne : e.1 ∉ rest.map Prod.fst := (List.nodup_cons.mp hn).1
    rcases List.mem_cons.mp hm with he | hr
    · subst he
      have hzero : ((rest.filter (fun e => isDue now e.2)).map Prod.fst).count n = 0 := by
        rw [List.count_eq_zero]
        intro hmem
        rcases List.mem_map.mp hmem with ⟨f, hf, hfst⟩
        have hf2 : f.1 ∈ rest.map Prod.fst :=
          List.mem_map_of_mem Prod.fst (List.mem_of_mem_filter hf)
        rw [hfst] at hf2
        exact hne hf2
      by_cases hd : isDue now s = true
      · simp [List.filter_cons, hd, hzero]
      · simp only [Bool.not_eq_true] at hd
        simp [List.filter_cons, hd, hzero]
    · have hmem : n ∈ rest.map Prod.fst := List.mem_map_of_mem Prod.fst hr
      have hne2 : e.1 ≠ n := fun h => hne (h ▸ hmem)
      by_cases hd : isDue now e.2 = true
      · simp [List.filter_cons, hd, List.count_cons, hne2, ih hn2 hr]
      · simp only [Bool.not_eq_true] at hd
        simp [List.filter_cons, hd, ih hn2 hr]

theorem tick_count (now : Nat) (n : String) (s : SchedState)
    (es : List (String × SchedState)) (hn : (es.map Prod.fst).Nodup)
    (hm : (n, s) ∈ es) :
    (tick now es).1.count n = if isDue now s then 1 else 0 := by
  have hperm := List.perm_insertionSort (α := String) (· ≤ ·)
    ((es.filter (fun e => isDue now e.2)).map Prod.fst)
  rw [tick, hperm.count_eq]
  exact count_dueNames now n s es hn hm

theorem tick_consumes (now : Nat) (n : String) (s : SchedState)
    (es : List (String × SchedState)) (hm : (n, s) ∈ es) (hd : isDue now s = true) :
    (n, consume s) ∈ (tick now es).2 := by
  have := List.mem_map_of_mem
    (fun e : String × SchedState => if isDue now e.2 then (e.1, consume e.2) else e) hm
  simpa [tick, hd] using this

theorem tick_disabled_stable (now : Nat) (n : String)
    (es : List (String × SchedState)) (hn : (es.map Prod.fst).Nodup)
    (hm : (n, SchedState.disabled) ∈ es) :
    (tick now es).1.count n = 0 ∧ (n, SchedState.disabled) ∈ (tick now es).2 := by
  constructor
  · have := tick_count now n SchedState.disabled es hn hm
    simpa [isDue] using this
  · have := List.mem_map_of_mem
      (fun e : String × SchedState => if isDue now e.2 then (e.1, consume e.2) else e) hm
    simpa [tick, isDue] using this

theorem runTicks_disabled_stable (n : String) :
    ∀ (times : List Nat) (es : List (String × SchedState)),
    (es.map Prod.fst).Nodup → (n, SchedState.disabled) ∈ es →
    (runTicks times es).1.count n = 0 ∧
      (n, SchedState.disabled) ∈ (runTicks times es).2 := by
  intro times
  induction times with
  | nil => intro es _ hm; simpa [runTicks] using hm
  | cons now rest ih =>
    intro es hn hm
    have h1 := tick_disabled_stable now n es hn hm
    have hn1 : ((tick now es).2.map Prod.fst).Nodup := by
      rw [tick_names]; exact hn
    have h2 := ih (tick now es).2 hn1 h1.2
    refine ⟨?_, h2.2⟩
    simp [runTicks, List.count_append, h1.1, h2.1]

/-- C1: for a set whose schedule is RunOnceAt(t) with t in the past at
the first tick, exactly one run request for it is dispatched across the
whole tick sequence, and its schedule is disabled afterwards; repeated
ticks never dispatch a second run. -/
theorem runOnceAt_fires_exactly_once (es : List (String × SchedState))
    (n : String) (t now : Nat) (rest : List Nat)
    (hn : (es.map Prod.fst).Nodup) (hm : (n, SchedState.runOnceAt t) ∈ es)
    (ht : t ≤ now) :
    (runTicks (now :: rest) es).1.count n = 1 ∧
      (n, SchedState.disabled) ∈ (runTicks (now :: rest) es).2 := by
  have hdue : isDue now (SchedState.runOnceAt t) = true := by
    simp [isDue, ht]
  have hcount1 : (tick now es).1.count n = 1 := by
    rw [tick_count now n (SchedState.runOnceAt t) es hn hm, hdue]; rfl
  have hdis : (n, SchedState.disabled) ∈ (tick now es).2 := by
    have := tick_consumes now n (SchedState.runOnceAt t) es hm hdue
    simpa [consume] using this
  have hn1 : ((tick now es).2.map Prod.fst).Nodup := by
    rw [tick_names]; exact hn
  have hrest := runTicks_disabled_stable n rest (tick now es).2 hn1 hdis
  refine ⟨?_, hrest.2⟩
  simp [runTicks, List.count_append, hcount1, hrest.1]

/-- C1 witness: a single one-time set due at time 5, ticked at 10, 11 and
12, is dispatched exactly once and left disabled. -/
theorem runOnceAt_fires_exactly_once_witness :
    (runTicks [10, 11, 12] [("a", SchedState.runOnceAt 5)]).1.count "a" = 1 ∧
      ("a", SchedState.disabled) ∈ (runTicks [10, 11, 12] [("a", SchedState.runOnceAt 5)]).2 :=
  runOnceAt_fires_exactly_once [("a", SchedState.runOnceAt 5)] "a" 5 10 [11, 12]
    (by simp) (by simp) (by decide)

/-- C8: the run requests dispatched at one tick are exactly the names of
the sets due at that tick, in ascending name order, deterministically. -/
theorem tick_dispatch_ascending (now : Nat) (es : List (String × SchedState)) :
    ((tick now es).1).Sorted (· ≤ ·) ∧
      (tick now es).1.Perm ((es.filter (fun e => isDue now e.2)).map Prod.fst) := by
  constructor
  · exact List.sorted_insertionSort (· ≤ ·) _
  · exact List.perm_insertionSort (· ≤ ·) _

/-! ## Execution Engine, modelled from the design document §4.3 and §5 -/

/-- Modelled from the spec: §6, the archival/transfer primitive's
per-path result: success with a byte count, or failure with a reason. -/
inductive TransferResult where
  | ok : Nat → TransferResult
  | failed : String → TransferResult
deriving DecidableEq, Repr

def isOk (r : TransferResult) : Bool :=
  match r with
  | TransferResult.ok _ => true
  | TransferResult.failed _ => false

def reasonOf (r : TransferResult) : String :=
  match r with
  | TransferResult.ok _ => ""
  | TransferResult.failed m => m

def bytesOf (r : TransferResult) : Nat :=
  match r with
  | TransferResult.ok b => b
  | TransferResult.failed _ => 0

/-- Modelled from the spec: §4.3 backup algorithm per-path loop: each
source path is attempted in order; a per-path failure is recorded with
its reason and the loop continues with the next path. Returns the failed
(path, reason) pairs, the succeeded paths, and the bytes transferred. -/
def processPaths (transfer : String → TransferResult) :
    List String → List (String × String) × List String × Nat
  | [] => ([], [], 0)
  | p :: rest =>
    match transfer p, processPaths transfer rest with
    | TransferResult.ok b, (fs, ss, n) => (fs, p :: ss, b + n)
    | TransferResult.failed r, (fs, ss, n) => ((p, r) :: fs, ss, n)

/-- Modelled from the spec: §4.3, runBackup: a destination-unreachable
condition is Fatal and aborts immediately with no archive; otherwise all
source paths are processed, the outcome is Success exactly when no path
failed and PartialFailure with the failed paths otherwise, and the
Archive manifest lists the succeeded paths. -/
def runBackup (destReachable : Bool) (transfer : String → TransferResult)
    (s : BackupSet) : JobRecord × Option (List String) :=
  if destReachable then
    (⟨s.name,
      if ((processPaths transfer s.sources).1).isEmpty then Outcome.Success
      else Outcome.PartialFailure (processPaths transfer s.sources).1,
      (processPaths transfer s.sources).2.2⟩,
     some (processPaths transfer s.sources).2.1)
  else (⟨s.name, Outcome.Fatal "destination unreachable", 0⟩, none)

theorem processPaths_eq (transfer : String → TransferResult) :
    ∀ paths : List String,
    processPaths transfer paths =
      ((paths.filter (fun p => !(isOk (transfer p)))).map
        (fun p => (p, reasonOf (transfer p))),
       paths.filter (fun p => isOk (transfer p)),
       (paths.map (fun p => bytesOf (transfer p))).sum) := by
  intro paths
  induction paths with
  | nil => rfl
  | cons p rest ih =>
    cases htp : transfer p with
    | ok b =>
      simp [processPaths, htp, ih, List.filter_cons, isOk, bytesOf]
    | failed r =>
      simp [processPaths, htp, ih, List.filter_cons, isOk, bytesOf, reasonOf]

theorem length_filter_ok_add (transfer : String → TransferResult) :
    ∀ paths : List String,
    (paths.filter (fun p => isOk (transfer p))).length +
      (paths.filter (fun p => !(isOk (transfer p)))).length = paths.length := by
  intro paths
  induction paths with
  | nil => rfl
  | cons p rest ih =>
    by_cases h : isOk (transfer p) = true
    · simp [List.filter_cons, h, Nat.succ_add, ih]
    · simp only [Bool.not_eq_true] at h
      simp [List.filter_cons, h, ← ih]
      omega

/-- C2: with the destination reachable, when exactly M of the N source
paths fail transfer (0 < M < N) the finalized record's outcome is
PartialFailure listing exactly those M failed paths with their reasons,
and the Archive manifest holds exactly the N-M succeeded paths; the
outcome is Success exactly when every source path transferred with zero
errors. -/
theorem backup_outcome_spec (transfer : String → TransferResult) (s : BackupSet) :
    ((0 < (s.sources.filter (fun p => !(isOk (transfer p)))).length →
      (s.sources.filter (fun p => !(isOk (transfer p)))).length < s.sources.length →
      (runBackup true transfer s).1.outcome =
        Outcome.PartialFailure ((s.sources.filter (fun p => !(isOk (transfer p)))).map
          (fun p => (p, reasonOf (transfer p)))) ∧
      (runBackup true transfer s).2 =
        some (s.sources.filter (fun p => isOk (transfer p))) ∧
      (s.sources.filter (fun p => isOk (transfer p))).length =
        s.sources.length - (s.sources.filter (fun p => !(isOk (transfer p)))).length)) ∧
    ((runBackup true transfer s).1.outcome = Outcome.Success ↔
      ∀ p ∈ s.sources, isOk (transfer p) = true) := by
  have hpp := processPaths_eq transfer s.sources
  have hlen := length_filter_ok_add transfer s.sources
  constructor
  · intro hM _
    have hne : (s.sources.filter (fun p => !(isOk (transfer p)))) ≠ [] := by
      intro h
      rw [h] at hM
      exact absurd hM (by simp)
    have hempty : ((processPaths transfer s.sources).1).isEmpty = false := by
      rw [hpp]
      simp only [List.isEmpty_eq_false, ne_eq, List.map_eq_nil_iff]
      exact hne
    refine ⟨?_, ?_, ?_⟩
    · have houtcome : (runBackup true transfer s).1.outcome =
          if (processPaths transfer s.sources).1.isEmpty then Outcome.Success
          else Outcome.PartialFailure (processPaths transfer s.sources).1 := by
        simp [runBackup]
      rw [houtcome, hempty]
      simp [hpp]
    · simp [runBackup, hpp]
    · omega
  · constructor
    · intro hsucc
      by_contra hnot
      push_neg at hnot
      rcases hnot with ⟨p, hp, hfail⟩
      have hmem : p ∈ s.sources.filter (fun p => !(isOk (transfer p))) := by
        simp only [List.mem_filter, Bool.not_eq_eq_eq_not, Bool.not_true]
        exact ⟨hp, by simpa using hfail⟩
      have hne : (s.sources.filter (fun p => !(isOk (transfer p)))) ≠ [] :=
        List.ne_nil_of_mem hmem
      have hempty : ((processPaths transfer s.sources).1).isEmpty = false := by
        rw [hpp]
        simp only [List.isEmpty_eq_false, ne_eq, List.map_eq_nil_iff]
        exact hne
      simp [runBackup, hempty] at hsucc
    · intro hall
      have hnil : s.sources.filter (fun p => !(isOk (transfer p))) = [] := by
        rw [List.filter_eq_nil_iff]
        intro p hp
        simp [hall p hp]
      have hempty : ((processPaths transfer s.sources).1).isEmpty = true := by
        rw [hpp]
        simp [hnil]
      simp [runBackup, hempty]

/-- C2 witness: three source paths of which one fails: the outcome is the
partial failure listing that path, and the manifest holds the other
two. -/
theorem backup_outcome_spec_witness :
    (runBackup true
        (fun p => if p = "/b" then TransferResult.failed "denied" else TransferResult.ok 7)
        ⟨"docs", ["/a", "/b", "/c"], "/dst", ScheduleDescriptor.Disabled, 2, true⟩).1.outcome =
      Outcome.PartialFailure [("/b", "denied")] ∧
    (runBackup true
        (fun p => if p = "/b" then TransferResult.failed "denied" else TransferResult.ok 7)
        ⟨"docs", ["/a", "/b", "/c"], "/dst", ScheduleDescriptor.Disabled, 2, true⟩).2 =
      some ["/a", "/c"] := by
  have h := (backup_outcome_spec
    (fun p => if p = "/b" then TransferResult.failed "denied" else TransferResult.ok 7)
    ⟨"docs", ["/a", "/b", "/c"], "/dst", ScheduleDescriptor.Disabled, 2, true⟩).1
    (by decide) (by decide)
  refine ⟨?_, ?_⟩
  · have h1 := h.1
    simpa using h1
  · have h2 := h.2.1
    simpa using h2

/-- Modelled from the spec: §5 Cancellation, the distinguished reason a
cancelled job records on every path not yet processed. -/
def cancelledReason : String := "cancelled"

/-- Modelled from the spec: §5 Cancellation: cancellation is cooperative
and takes effect only between per-path steps. The first argument counts
the per-path steps still allowed before the cancel request is observed;
once it is observed, the current path and every remaining path are
recorded as failed with the cancelled reason, and nothing already written
is undone. -/
def processPathsCancel (transfer : String → TransferResult) :
    Nat → List String → List (String × String) × List String × Nat
  | _, [] => ([], [], 0)
  | 0, p :: rest => ((p :: rest).map (fun q => (q, cancelledReason)), [], 0)
  | k + 1, p :: rest =>
    match transfer p, processPathsCancel transfer k rest with
    | TransferResult.ok b, (fs, ss, n) => (fs, p :: ss, b + n)
    | TransferResult.failed r, (fs, ss, n) => ((p, r) :: fs, ss, n)

/-- Modelled from the spec: §5 Cancellation: a cancelled backup job still
finalizes, with outcome PartialFailure over the recorded failures, and
the destination keeps the data written for the paths completed before the
cancel point. -/
def runBackupCancel (transfer : String → TransferResult) (cancelAt : Nat)
    (s : BackupSet) : JobRecord × Option (List String) :=
  (⟨s.name,
    if ((processPathsCancel transfer cancelAt s.sources).1).isEmpty then Outcome.Success
    else Outcome.PartialFailure (processPathsCancel transfer cancelAt s.sources).1,
    (processPathsCancel transfer cancelAt s.sources).2.2⟩,
   some (processPathsCancel transfer cancelAt s.sources).2.1)

theorem processPathsCancel_eq (transfer : String → TransferResult) :
    ∀ (paths : List String) (k : Nat),
    processPathsCancel transfer k paths =
      (((paths.take k).filter (fun p => !(isOk (transfer p)))).map
          (fun p => (p, reasonOf (transfer p))) ++
        (paths.drop k).map (fun q => (q, cancelledReason)),
       (paths.take k).filter (fun p => isOk (transfer p)),
       ((paths.take k).map (fun p => bytesOf (transfer p))).sum) := by
  intro paths
  induction paths with
  | nil => intro k; simp [processPathsCancel]
  | cons p rest ih =>
    intro k
    cases k with
    | zero => simp [processPathsCancel]
    | succ m =>
      cases htp : transfer p with
      | ok b =>
        simp [processPathsCancel, htp, ih m, List.filter_cons, isOk, bytesOf]
      | failed r =>
        simp [processPathsCancel, htp, ih m, List.filter_cons, isOk, bytesOf, reasonOf]

/-- C9: a backup cancelled after cancelAt of its per-path steps (with at
least one path left) finalizes as PartialFailure; every path not yet
processed is listed with the distinguished cancelled reason, the paths
before the cancel point were processed normally, and the destination data
kept is exactly what an uncancelled run writes for the completed prefix -
nothing is rolled back. -/
theorem cancelled_job_partializes (transfer : String → TransferResult)
    (cancelAt : Nat) (s : BackupSet) (hc : cancelAt < s.sources.length) :
    (runBackupCancel transfer cancelAt s).1.outcome =
      Outcome.PartialFailure
        (((s.sources.take cancelAt).filter (fun p => !(isOk (transfer p)))).map
            (fun p => (p, reasonOf (transfer p))) ++
          (s.sources.drop cancelAt).map (fun q => (q, cancelledReason))) ∧
    (∀ q ∈ s.sources.drop cancelAt,
      (q, cancelledReason) ∈ (processPathsCancel transfer cancelAt s.sources).1) ∧
    (runBackupCancel transfer cancelAt s).2 =
      some ((processPaths transfer (s.sources.take cancelAt)).2.1) := by
  have hpc := processPathsCancel_eq transfer s.sources cancelAt
  have hdrop : s.sources.drop cancelAt ≠ [] := by
    intro h
    have := List.drop_eq_nil_iff.mp h
    omega
  have hempty : ((processPathsCancel transfer cancelAt s.sources).1).isEmpty = false := by
    rw [hpc]
    simp only [List.isEmpty_eq_false, ne_eq, List.append_eq_nil, List.map_eq_nil_iff,
      not_and]
    intro _
    exact hdrop
  refine ⟨?_, ?_, ?_⟩
  · have houtcome : (runBackupCancel transfer cancelAt s).1.outcome =
        if ((processPathsCancel transfer cancelAt s.sources).1).isEmpty then Outcome.Success
        else Outcome.PartialFailure (processPathsCancel transfer cancelAt s.sources).1 := by
      simp [runBackupCancel]
    rw [houtcome, hempty]
    simp [hpc]
  · intro q hq
    rw [hpc]
    exact List.mem_append_right _ (List.mem_map_of_mem _ hq)
  · rw [processPaths_eq]
    simp [runBackupCancel, hpc]

/-- C9 witness: a three-path backup cancelled after one step keeps the
first path's data and marks the last two cancelled. -/
theorem cancelled_job_partializes_witness :
    (runBackupCancel (fun _ => TransferResult.ok 4) 1
        ⟨"docs", ["/a", "/b", "/c"], "/dst", ScheduleDescriptor.Disabled, 2, true⟩).1.outcome =
      Outcome.PartialFailure [("/b", cancelledReason), ("/c", cancelledReason)] ∧
    (runBackupCancel (fun _ => TransferResult.ok 4) 1
        ⟨"docs", ["/a", "/b", "/c"], "/dst", ScheduleDescriptor.Disabled, 2, true⟩).2 =
      some ["/a"] := by
  have h := cancelled_job_partializes (fun _ => TransferResult.ok 4) 1
    ⟨"docs", ["/a", "/b", "/c"], "/dst", ScheduleDescriptor.Disabled, 2, true⟩ (by decide)
  refine ⟨?_, ?_⟩
  · have h1 := h.1
    simpa [isOk] using h1
  · have h3 := h.2.2
    simpa [processPaths, isOk] using h3

/-! ## Per-set mutual exclusion, modelled from the design document §4.3 -/

/-- Modelled from the spec: §4.3, the response a runBackup caller sees:
rejected immediately with AlreadyRunning, or the job ran and finalized. -/
inductive EngResp where
  | alreadyRunning : EngResp
  | finalized : EngResp
deriving DecidableEq, Repr

/-- State of two in-flight runBackup calls against the engine's
per-set-name mutual exclusion: the set names currently running, each
call's program counter (0 not started, 1 in flight, 2 done) and each
call's response once produced. -/
structure TwoCallState where
  running : List String
  pc1 : Nat
  pc2 : Nat
  resp1 : Option EngResp
  resp2 : Option EngResp
deriving DecidableEq, Repr

def initCalls : TwoCallState := ⟨[], 0, 0, none, none⟩

/-- Modelled from the spec: §4.3, one atomic step of a runBackup call
keyed by its set name: its first step checks the running-name guard and
either acquires it or fails immediately with AlreadyRunning (no queuing);
its second step finalizes the job and releases the name. -/
def stepCall (name : String) (pc : Nat) (running : List String) :
    Nat × List String × Option EngResp :=
  match pc with
  | 0 => if name ∈ running then (2, running, some EngResp.alreadyRunning)
         else (1, name :: running, none)
  | 1 => (2, running.erase name, some EngResp.finalized)
  | _ => (pc, running, none)

/-- One interleaving step: the boolean picks which of the two calls moves. -/
def stepTwo (m₁ m₂ : String) (b : Bool) (st : TwoCallState) : TwoCallState :=
  if b then
    ⟨(stepCall m₁ st.pc1 st.running).2.1, (stepCall m₁ st.pc1 st.running).1, st.pc2,
     st.resp1 <|> (stepCall m₁ st.pc1 st.running).2.2, st.resp2⟩
  else
    ⟨(stepCall m₂ st.pc2 st.running).2.1, st.pc1, (stepCall m₂ st.pc2 st.running).1,
     st.resp1, st.resp2 <|> (stepCall m₂ st.pc2 st.running).2.2⟩

/-- Runs two interleaved runBackup calls under the given schedule of
interleaving choices. -/
def runCalls (m₁ m₂ : String) : List Bool → TwoCallState → TwoCallState
  | [], st => st
  | b :: rest, st => runCalls m₁ m₂ rest (stepTwo m₁ m₂ b st)

theorem runCalls_done1 (m₁ m₂ : String) :
    ∀ (sched : List Bool) (st : TwoCallState), st.pc1 = 2 →
    (runCalls m₁ m₂ sched st).pc1 = 2 ∧ (runCalls m₁ m₂ sched st).resp1 = st.resp1 := by
  intro sched
  induction sched with
  | nil => intro st h; exact ⟨h, rfl⟩
  | cons b rest ih =>
    intro st h
    have hstep : (stepTwo m₁ m₂ b st).pc1 = 2 ∧ (stepTwo m₁ m₂ b st).resp1 = st.resp1 := by
      cases b with
      | true => simp [stepTwo, stepCall, h]
      | false => simp [stepTwo, h]
    have := ih (stepTwo m₁ m₂ b st) hstep.1
    exact ⟨(by simpa [runCalls] using this.1), by
      have h2 := this.2
      simp only [runCalls]
      rw [h2, hstep.2]⟩

theorem runCalls_done2 (m₁ m₂ : String) :
    ∀ (sched : List Bool) (st : TwoCallState), st.pc2 = 2 →
    (runCalls m₁ m₂ sched st).pc2 = 2 ∧ (runCalls m₁ m₂ sched st).resp2 = st.resp2 := by
  intro sched
  induction sched with
  | nil => intro st h; exact ⟨h, rfl⟩
  | cons b rest ih =>
    intro st h
    have hstep : (stepTwo m₁ m₂ b st).pc2 = 2 ∧ (stepTwo m₁ m₂ b st).resp2 = st.resp2 := by
      cases b with
      | true => simp [stepTwo, h]
      | false => simp [stepTwo, stepCall, h]
    have := ih (stepTwo m₁ m₂ b st) hstep.1
    exact ⟨(by simpa [runCalls] using this.1), by
      have h2 := this.2
      simp only [runCalls]
      rw [h2, hstep.2]⟩

theorem runCalls_finishes1 (m₁ m₂ : String) :
    ∀ (sched : List Bool) (st : TwoCallState), st.pc1 = 1 →
    (runCalls m₁ m₂ sched st).pc1 = 2 →
    (runCalls m₁ m₂ sched st).resp1 = (st.resp1 <|> some EngResp.finalized) := by
  intro sched
  induction sched with
  | nil =>
    intro st h1 h2
    rw [runCalls] at h2
    omega
  | cons b rest ih =>
    intro st h1 h2
    cases b with
    | true =>
      have hstep : (stepTwo m₁ m₂ true st).pc1 = 2 ∧
          (stepTwo m₁ m₂ true st).resp1 = (st.resp1 <|> some EngResp.finalized) := by
        simp [stepTwo, stepCall, h1]
      have hdone := runCalls_done1 m₁ m₂ rest (stepTwo m₁ m₂ true st) hstep.1
      simp only [runCalls]
      rw [hdone.2, hstep.2]
    | false =>
      have hstep : (stepTwo m₁ m₂ false st).pc1 = 1 ∧
          (stepTwo m₁ m₂ false st).resp1 = st.resp1 := by
        simp [stepTwo, h1]
      simp only [runCalls] at h2 ⊢
      rw [← hstep.2]
      exact ih (stepTwo m₁ m₂ false st) hstep.1 h2

theorem runCalls_finishes2 (m₁ m₂ : String) :
    ∀ (sched : List Bool) (st : TwoCallState), st.pc2 = 1 →
    (runCalls m₁ m₂ sched st).pc2 = 2 →
    (runCalls m₁ m₂ sched st).resp2 = (st.resp2 <|> some EngResp.finalized) := by
  intro sched
  induction sched with
  | nil =>
    intro st h1 h2
    rw [runCalls] at h2
    omega
  | cons b rest ih =>
    intro st h1 h2
    cases b with
    | false =>
      have hstep : (stepTwo m₁ m₂ false st).pc2 = 2 ∧
          (stepTwo m₁ m₂ false st).resp2 = (st.resp2 <|> some EngResp.finalized) := by
        simp [stepTwo, stepCall, h1]
      have hdone := runCalls_done2 m₁ m₂ rest (stepTwo m₁ m₂ false st) hstep.1
      simp only [runCalls]
      rw [hdone.2, hstep.2]
    | true =>
      have hstep : (stepTwo m₁ m₂ true st).pc2 = 1 ∧
          (stepTwo m₁ m₂ true st).resp2 = st.resp2 := by
        simp [stepTwo, h1]
      simp only [runCalls] at h2 ⊢
      rw [← hstep.2]
      exact ih (stepTwo m₁ m₂ true st) hstep.1 h2

/-- The invariant maintained by two interleaved calls with distinct set
names: a name is held exactly while its call is in flight, the held set
is duplicate-free and holds nothing else, and a call's response is
finalized exactly when it is done. -/
def TwoInv (m₁ m₂ : String) (st : TwoCallState) : Prop :=
  st.running.Nodup ∧
  (m₁ ∈ st.running ↔ st.pc1 = 1) ∧
  (m₂ ∈ st.running ↔ st.pc2 = 1) ∧
  (∀ x ∈ st.running, x = m₁ ∨ x = m₂) ∧
  (st.resp1 = if st.pc1 = 2 then some EngResp.finalized else none) ∧
  (st.resp2 = if st.pc2 = 2 then some EngResp.finalized else none)

theorem stepTwo_inv (m₁ m₂ : String) (hne : m₁ ≠ m₂) (b : Bool)
    (st : TwoCallState) (h : TwoInv m₁ m₂ st) : TwoInv m₁ m₂ (stepTwo m₁ m₂ b st) := by
  obtain ⟨hnd, h1, h2, hsub, hr1, hr2⟩ := h
  have hne2 : ¬ (m₂ = m₁) := fun h => hne h.symm
  cases b with
  | true =>
    match hpc : st.pc1 with
    | 0 =>
      have hout : m₁ ∉ st.running := by
        rw [h1, hpc]; omega
      have hstep : stepTwo m₁ m₂ true st =
          ⟨m₁ :: st.running, 1, st.pc2, st.resp1, st.resp2⟩ := by
        simp [stepTwo, stepCall, hpc, hout]
      rw [hstep]
      refine ⟨List.nodup_cons.mpr ⟨hout, hnd⟩, by simp, ?_, ?_, ?_, hr2⟩
      · simp only [List.mem_cons, hne2, false_or]
        exact h2
      · intro x hx
        rcases List.mem_cons.mp hx with hx | hx
        · exact Or.inl hx
        · exact hsub x hx
      · rw [hr1, hpc]
        simp
    | 1 =>
      have hrnone : st.resp1 = none := by
        rw [hr1, hpc]; simp
      have hstep : stepTwo m₁ m₂ true st =
          ⟨st.running.erase m₁, 2, st.pc2, some EngResp.finalized, st.resp2⟩ := by
        simp [stepTwo, stepCall, hpc, hrnone]
      rw [hstep]
      refine ⟨hnd.erase m₁, ?_, ?_, ?_, by simp, hr2⟩
      · simp [hnd.mem_erase_iff]
      · rw [List.mem_erase_of_ne (Ne.symm hne)]
        exact h2
      · intro x hx
        exact hsub x (List.mem_of_mem_erase hx)
    | n + 2 =>
      have hcall : stepCall m₁ st.pc1 st.running = (st.pc1, st.running, none) := by
        rw [hpc]
        rfl
      have hstep : stepTwo m₁ m₂ true st = st := by
        simp [stepTwo, hcall]
      rw [hstep]
      exact ⟨hnd, h1, h2, hsub, hr1, hr2⟩
  | false =>
    match hpc : st.pc2 with
    | 0 =>
      have hout : m₂ ∉ st.running := by
        rw [h2, hpc]; omega
      have hstep : stepTwo m₁ m₂ false st =
          ⟨m₂ :: st.running, st.pc1, 1, st.resp1, st.resp2⟩ := by
        simp [stepTwo, stepCall, hpc, hout]
      rw [hstep]
      refine ⟨List.nodup_cons.mpr ⟨hout, hnd⟩, ?_, by simp, ?_, hr1, ?_⟩
      · simp only [List.mem_cons, hne, false_or]
        exact h1
      · intro x hx
        rcases List.mem_cons.mp hx with hx | hx
        · exact Or.inr hx
        · exact hsub x hx
      · rw [hr2, hpc]
        simp
    | 1 =>
      have hrnone : st.resp2 = none := by
        rw [hr2, hpc]; simp
      have hstep : stepTwo m₁ m₂ false st =
          ⟨st.running.erase m₂, st.pc1, 2, st.resp1, some EngResp.finalized⟩ := by
        simp [stepTwo, stepCall, hpc, hrnone]
      rw [hstep]
      refine ⟨hnd.erase m₂, ?_, ?_, ?_, hr1, by simp⟩
      · rw [List.mem_erase_of_ne hne]
        exact h1
      · simp [hnd.mem_erase_iff]
      · intro x hx
        exact hsub x (List.mem_of_mem_erase hx)
    | n + 2 =>
      have hcall : stepCall m₂ st.pc2 st.running = (st.pc2, st.running, none) := by
        rw [hpc]
        rfl
      have hstep : stepTwo m₁ m₂ false st = st := by
        simp [stepTwo, hcall]
      rw [hstep]
      exact ⟨hnd, h1, h2, hsub, hr1, hr2⟩

theorem runCalls_inv (m₁ m₂ : String) (hne : m₁ ≠ m₂) :
    ∀ (sched : List Bool) (st : TwoCallState), TwoInv m₁ m₂ st →
    TwoInv m₁ m₂ (runCalls m₁ m₂ sched st) := by
  intro sched
  induction sched with
  | nil => intro st h; exact h
  | cons b rest ih =>
    intro st h
    exact ih (stepTwo m₁ m₂ b st) (stepTwo_inv m₁ m₂ hne b st h)

/-- C3: when two runBackup calls with the same set name overlap (each
makes its first step before either finalizes), exactly one proceeds to
finalize and the other returns AlreadyRunning immediately, under every
completing interleaving; two calls with different set names both proceed
and both finalize under every completing interleaving. -/
theorem runBackup_mutual_exclusion (n m : String) (sched : List Bool) :
    (sched.take 2 = [true, false] →
      (runCalls n n sched initCalls).pc1 = 2 →
      (runCalls n n sched initCalls).pc2 = 2 →
      (runCalls n n sched initCalls).resp1 = some EngResp.finalized ∧
      (runCalls n n sched initCalls).resp2 = some EngResp.alreadyRunning) ∧
    (sched.take 2 = [false, true] →
      (runCalls n n sched initCalls).pc1 = 2 →
      (runCalls n n sched initCalls).pc2 = 2 →
      (runCalls n n sched initCalls).resp1 = some EngResp.alreadyRunning ∧
      (runCalls n n sched initCalls).resp2 = some EngResp.finalized) ∧
    (n ≠ m →
      (runCalls n m sched initCalls).pc1 = 2 →
      (runCalls n m sched initCalls).pc2 = 2 →
      (runCalls n m sched initCalls).resp1 = some EngResp.finalized ∧
      (runCalls n m sched initCalls).resp2 = some EngResp.finalized) := by
  refine ⟨?_, ?_, ?_⟩
  · intro htake hc1 hc2
    match sched, htake with
    | true :: false :: rest, _ =>
      have hstate : stepTwo n n false (stepTwo n n true initCalls) =
          ⟨[n], 1, 2, none, some EngResp.alreadyRunning⟩ := by
        simp [stepTwo, stepCall, initCalls]
      simp only [runCalls, hstate] at hc1 hc2 ⊢
      have hdone2 := runCalls_done2 n n rest
        ⟨[n], 1, 2, none, some EngResp.alreadyRunning⟩ rfl
      have hfin1 := runCalls_finishes1 n n rest
        ⟨[n], 1, 2, none, some EngResp.alreadyRunning⟩ rfl hc1
      refine ⟨?_, hdone2.2⟩
      simpa using hfin1
  · intro htake hc1 hc2
    match sched, htake with
    | false :: true :: rest, _ =>
      have hstate : stepTwo n n true (stepTwo n n false initCalls) =
          ⟨[n], 2, 1, some EngResp.alreadyRunning, none⟩ := by
        simp [stepTwo, stepCall, initCalls]
      simp only [runCalls, hstate] at hc1 hc2 ⊢
      have hdone1 := runCalls_done1 n n rest
        ⟨[n], 2, 1, some EngResp.alreadyRunning, none⟩ rfl
      have hfin2 := runCalls_finishes2 n n rest
        ⟨[n], 2, 1, some EngResp.alreadyRunning, none⟩ rfl hc2
      refine ⟨hdone1.2, ?_⟩
      simpa using hfin2
  · intro hne hc1 hc2
    have hinit : TwoInv n m initCalls := by
      refine ⟨List.nodup_nil, ?_, ?_, ?_, ?_, ?_⟩ <;> simp [initCalls]
    have hfin := runCalls_inv n m hne sched initCalls hinit
    obtain ⟨_, _, _, _, hr1, hr2⟩ := hfin
    rw [hr1, hr2, hc1, hc2]
    simp

/-- C3 witness: with set name a twice under the interleaved schedule the
first call finalizes and the second is rejected; with names a and b under
a fully interleaved schedule both finalize. -/
theorem runBackup_mutual_exclusion_witness :
    ((runCalls "a" "a" [true, false, true] initCalls).resp1 = some EngResp.finalized ∧
     (runCalls "a" "a" [true, false, true] initCalls).resp2 = some EngResp.alreadyRunning) ∧
    ((runCalls "a" "b" [true, false, true, false] initCalls).resp1 = some EngResp.finalized ∧
     (runCalls "a" "b" [true, false, true, false] initCalls).resp2 = some EngResp.finalized) := by
  constructor
  · exact (runBackup_mutual_exclusion "a" "a" [true, false, true]).1
      (by decide) (by decide) (by decide)
  · exact (runBackup_mutual_exclusion "a" "b" [true, false, true, false]).2.2
      (by decide) (by decide) (by decide)

/-! ## Retention sweep, modelled from the design document §4.2 and §5 -/

/-- Modelled from the spec: §3 Archive, the artifact one completed job
produces on the destination, with its creation timestamp. -/
structure Archive where
  archId : Nat
  setName : String
  createdAt : Nat
deriving DecidableEq, Repr

/-- Modelled from the spec: §4.2 and §5, the sweep walk over the
archives listed oldest-first: while more than the retention count would
remain it deletes the oldest archive, except that an archive locked by an
in-flight restore is skipped (kept) rather than deleted or blocked on,
and the walk stops at the first deletion failure. Returns the kept and
the deleted archives. -/
def sweepAux (locked : List Nat) (delOk : Nat → Bool) :
    Nat → List Archive → List Archive × List Archive
  | _, [] => ([], [])
  | 0, l => (l, [])
  | toDelete + 1, a :: rest =>
    if a.archId ∈ locked then
      (a :: (sweepAux locked delOk (toDelete + 1) rest).1,
       (sweepAux locked delOk (toDelete + 1) rest).2)
    else if delOk a.archId then
      ((sweepAux locked delOk toDelete rest).1,
       a :: (sweepAux locked delOk toDelete rest).2)
    else (a :: rest, [])

/-- Modelled from the spec: §4.2, the retention sweep run for one set
after a successful job: enumerate its archives oldest-first and delete
those beyond the retention count. -/
def retentionSweep (k : Nat) (locked : List Nat) (delOk : Nat → Bool)
    (archives : List Archive) : List Archive × List Archive :=
  sweepAux locked delOk
    ((archives.insertionSort (fun a b => a.createdAt ≤ b.createdAt)).length - k)
    (archives.insertionSort (fun a b => a.createdAt ≤ b.createdAt))

theorem sweepAux_locked_safe (locked : List Nat) (delOk : Nat → Bool) :
    ∀ (l : List Archive) (td : Nat),
    ∀ a ∈ (sweepAux locked delOk td l).2, a.archId ∉ locked := by
  intro l
  induction l with
  | nil =>
    intro td a ha
    cases td <;> simp [sweepAux] at ha
  | cons b rest ih =>
    intro td a ha
    cases td with
    | zero => simp [sweepAux] at ha
    | succ m =>
      by_cases hl : b.archId ∈ locked
      · rw [sweepAux, if_pos hl] at ha
        exact ih (m + 1) a ha
      · by_cases hd : delOk b.archId = true
        · rw [sweepAux, if_neg hl, if_pos hd] at ha
          rcases List.mem_cons.mp ha with h | h
          · rw [h]; exact hl
          · exact ih m a h
        · rw [sweepAux, if_neg hl, if_neg hd] at ha
          simp at ha

theorem sweepAux_unlocked (delOk : Nat → Bool) (hd : ∀ i, delOk i = true) :
    ∀ (l : List Archive) (td : Nat),
    sweepAux [] delOk td l = (l.drop td, l.take td) := by
  intro l
  induction l with
  | nil => intro td; cases td <;> simp [sweepAux]
  | cons b rest ih =>
    intro td
    cases td with
    | zero => simp [sweepAux]
    | succ m =>
      rw [sweepAux, if_neg (List.not_mem_nil b.archId), if_pos (hd b.archId), ih m]
      simp

/-- C6: the retention sweep never deletes an archive locked by an
in-flight restore, whatever the lock set and deletion outcomes; and with
no locks and no deletion failures it deletes exactly the oldest archives
beyond the retention count, oldest-first, so that exactly the retention
count remain whenever at least that many exist. -/
theorem retention_sweep_spec (k : Nat) (locked : List Nat) (delOk : Nat → Bool)
    (archives : List Archive)
    (hs : archives.Sorted (fun a b => a.createdAt ≤ b.createdAt)) :
    (∀ a ∈ (retentionSweep k locked delOk archives).2, a.archId ∉ locked) ∧
    (locked = [] → (∀ i, delOk i = true) →
      (retentionSweep k locked delOk archives).2 =
        archives.take (archives.length - k) ∧
      (retentionSweep k locked delOk archives).1 =
        archives.drop (archives.length - k) ∧
      (k ≤ archives.length →
        (retentionSweep k locked delOk archives).1.length = k)) := by
  have hsort : archives.insertionSort (fun a b => a.createdAt ≤ b.createdAt) = archives :=
    hs.insertionSort_eq
  constructor
  · intro a ha
    rw [retentionSweep] at ha
    exact sweepAux_locked_safe locked delOk _ _ a ha
  · rintro rfl hdel
    rw [retentionSweep, hsort, sweepAux_unlocked delOk hdel]
    refine ⟨rfl, rfl, ?_⟩
    intro hk
    rw [List.length_drop]
    omega

/-- C6 witness: the nightly set with retention count 2 after three
successful runs: of the three archives the oldest is deleted and exactly
the two newest remain. -/
theorem retention_sweep_spec_witness :
    (retentionSweep 2 [] (fun _ => true)
        [⟨1, "nightly", 1⟩, ⟨2, "nightly", 2⟩, ⟨3, "nightly", 3⟩]).1 =
      [⟨2, "nightly", 2⟩, ⟨3, "nightly", 3⟩] ∧
    (retentionSweep 2 [] (fun _ => true)
        [⟨1, "nightly", 1⟩, ⟨2, "nightly", 2⟩, ⟨3, "nightly", 3⟩]).2 =
      [⟨1, "nightly", 1⟩] := by
  have h := (retention_sweep_spec 2 [] (fun _ => true)
    [⟨1, "nightly", 1⟩, ⟨2, "nightly", 2⟩, ⟨3, "nightly", 3⟩] (by decide)).2
    rfl (fun _ => rfl)
  refine ⟨?_, ?_⟩
  · rw [h.2.1]
    rfl
  · rw [h.1]
    rfl

/-! ## Restore, modelled from the design document §3, §4.3 and §4.6 -/

/-- Modelled from the spec: §3 RestoreRequest per-entry conflict
policy. -/
inductive ConflictPolicy where
  | overwrite : ConflictPolicy
  | skip : ConflictPolicy
  | rename : ConflictPolicy
deriving DecidableEq, Repr

/-- The destination/target file system, an association of absolute paths
to contents; lookup finds the first binding. -/
abbrev FileSystem := List (String × String)

/-- The absolute path of a manifest entry re-applied under the target
root. -/
def targetPath (root rel : String) : String := root ++ "/" ++ rel

/-- Writes a binding, replacing an existing one for the same path and
appending otherwise; nothing is ever removed. -/
def fsWrite : FileSystem → String → String → FileSystem
  | [], p, v => [(p, v)]
  | e :: rest, p, v =>
    if e.1 == p then (p, v) :: rest else e :: fsWrite rest p v

/-- Modelled from the spec: §4.3 restore algorithm, applying one manifest
entry under the conflict policy at the target root: overwrite writes the
entry regardless of pre-existence, skip leaves an existing file
untouched, rename writes a renamed copy alongside an existing file;
nothing is ever deleted. -/
def applyEntry (policy : ConflictPolicy) (root : String) (fs : FileSystem)
    (e : String × String) : FileSystem :=
  match policy with
  | ConflictPolicy.overwrite => fsWrite fs (targetPath root e.1) e.2
  | ConflictPolicy.skip =>
    if fs.any (fun f => f.1 == targetPath root e.1) then fs
    else fs ++ [(targetPath root e.1, e.2)]
  | ConflictPolicy.rename =>
    if fs.any (fun f => f.1 == targetPath root e.1) then
      fs ++ [(targetPath root (e.1 ++ ".restored"), e.2)]
    else fs ++ [(targetPath root e.1, e.2)]

/-- Modelled from the spec: §4.3 restore algorithm: every manifest entry
is applied in order under the conflict policy; a per-entry failure is
recorded and the restore continues with the next entry. Returns the final
file system and the failed entries. -/
def runRestore (policy : ConflictPolicy) (entryOk : String → Bool) (root : String) :
    FileSystem → List (String × String) → FileSystem × List (String × String)
  | fs, [] => (fs, [])
  | fs, e :: rest =>
    if entryOk e.1 then
      runRestore policy entryOk root (applyEntry policy root fs e) rest
    else
      ((runRestore policy entryOk root fs rest).1,
       e :: (runRestore policy entryOk root fs rest).2)

theorem lookup_fsWrite_self (p v : String) :
    ∀ fs : FileSystem, (fsWrite fs p v).lookup p = some v := by
  intro fs
  induction fs with
  | nil => simp [fsWrite, List.lookup]
  | cons e rest ih =>
    obtain ⟨a, b⟩ := e
    by_cases h : a = p
    · subst h
      simp [fsWrite, List.lookup]
    · have hbeq : (a == p) = false := beq_eq_false_iff_ne.mpr h
      have hpa : (p == a) = false := beq_eq_false_iff_ne.mpr (Ne.symm h)
      simp only [fsWrite, hbeq, Bool.false_eq_true, if_false, List.lookup, hpa]
      exact ih

theorem lookup_fsWrite_ne (p v q : String) (hq : q ≠ p) :
    ∀ fs : FileSystem, (fsWrite fs p v).lookup q = fs.lookup q := by
  intro fs
  induction fs with
  | nil => simp [fsWrite, List.lookup, beq_eq_false_iff_ne.mpr hq]
  | cons e rest ih =>
    obtain ⟨a, b⟩ := e
    by_cases h : a = p
    · subst h
      have hqa : (q == a) = false := beq_eq_false_iff_ne.mpr hq
      simp [fsWrite, List.lookup, hqa]
    · have hbeq : (a == p) = false := beq_eq_false_iff_ne.mpr h
      simp only [fsWrite, hbeq, Bool.false_eq_true, if_false, List.lookup]
      by_cases h2 : q = a
      · subst h2
        simp [List.lookup]
      · have hqa : (q == a) = false := beq_eq_false_iff_ne.mpr h2
        simp only [hqa]
        exact ih

theorem lookup_append_some (p v : String) :
    ∀ (fs l : FileSystem), fs.lookup p = some v → (fs ++ l).lookup p = some v := by
  intro fs l
  induction fs with
  | nil => simp [List.lookup]
  | cons e rest ih =>
    obtain ⟨a, b⟩ := e
    intro h
    by_cases h2 : p = a
    · subst h2
      simpa [List.lookup, List.cons_append] using h
    · have hpa : (p == a) = false := beq_eq_false_iff_ne.mpr h2
      rw [List.lookup, hpa] at h
      rw [List.cons_append, List.lookup, hpa]
      exact ih h

theorem lookup_append_single_ne (p t v : String) (hq : p ≠ t) :
    ∀ fs : FileSystem, (fs ++ [(t, v)]).lookup p = fs.lookup p := by
  intro fs
  induction fs with
  | nil => simp [List.lookup, beq_eq_false_iff_ne.mpr hq]
  | cons e rest ih =>
    obtain ⟨a, b⟩ := e
    by_cases h2 : p = a
    · subst h2
      simp [List.lookup, List.cons_append]
    · have hpa : (p == a) = false := beq_eq_false_iff_ne.mpr h2
      rw [List.cons_append, List.lookup, hpa, List.lookup, hpa]
      exact ih

theorem applyEntry_keeps (policy : ConflictPolicy) (root : String)
    (fs : FileSystem) (e : String × String) (p v : String)
    (h : fs.lookup p = some v) :
    ∃ w, (applyEntry policy root fs e).lookup p = some w := by
  cases policy with
  | overwrite =>
    by_cases hp : p = targetPath root e.1
    · subst hp
      exact ⟨e.2, lookup_fsWrite_self _ _ fs⟩
    · rw [applyEntry, lookup_fsWrite_ne _ _ _ hp]
      exact ⟨v, h⟩
  | skip =>
    rw [applyEntry]
    by_cases hc : fs.any (fun f => f.1 == targetPath root e.1)
    · rw [if_pos hc]
      exact ⟨v, h⟩
    · rw [if_neg hc]
      exact ⟨v, lookup_append_some _ _ fs _ h⟩
  | rename =>
    rw [applyEntry]
    by_cases hc : fs.any (fun f => f.1 == targetPath root e.1)
    · rw [if_pos hc]
      exact ⟨v, lookup_append_some _ _ fs _ h⟩
    · rw [if_neg hc]
      exact ⟨v, lookup_append_some _ _ fs _ h⟩

theorem applyEntry_outside (policy : ConflictPolicy) (root : String)
    (fs : FileSystem) (e : String × String) (p : String)
    (hp : ∀ rel, p ≠ targetPath root rel) :
    (applyEntry policy root fs e).lookup p = fs.lookup p := by
  cases policy with
  | overwrite => exact lookup_fsWrite_ne _ _ _ (hp e.1) fs
  | skip =>
    rw [applyEntry]
    by_cases hc : fs.any (fun f => f.1 == targetPath root e.1)
    · rw [if_pos hc]
    · rw [if_neg hc]
      exact lookup_append_single_ne _ _ _ (hp e.1) fs
  | rename =>
    rw [applyEntry]
    by_cases hc : fs.any (fun f => f.1 == targetPath root e.1)
    · rw [if_pos hc]
      exact lookup_append_single_ne _ _ _ (hp (e.1 ++ ".restored")) fs
    · rw [if_neg hc]
      exact lookup_append_single_ne _ _ _ (hp e.1) fs

theorem applyEntry_skip_keeps_value (root : String) (fs : FileSystem)
    (e : String × String) (p v : String) (h : fs.lookup p = some v) :
    (applyEntry ConflictPolicy.skip root fs e).lookup p = some v := by
  rw [applyEntry]
  by_cases hc : fs.any (fun f => f.1 == targetPath root e.1)
  · rwa [if_pos hc]
  · rw [if_neg hc]
    exact lookup_append_some _ _ fs _ h

theorem runRestore_skip_keeps (entryOk : String → Bool) (root : String) :
    ∀ (entries : List (String × String)) (fs : FileSystem) (p v : String),
    fs.lookup p = some v →
    ((runRestore ConflictPolicy.skip entryOk root fs entries).1).lookup p = some v := by
  intro entries
  induction entries with
  | nil => intro fs p v h; exact h
  | cons e rest ih =>
    intro fs p v h
    by_cases hok : entryOk e.1 = true
    · rw [runRestore, if_pos hok]
      exact ih _ p v (applyEntry_skip_keeps_value root fs e p v h)
    · rw [runRestore, if_neg hok]
      exact ih fs p v h

theorem runRestore_keeps (policy : ConflictPolicy) (entryOk : String → Bool)
    (root : String) :
    ∀ (entries : List (String × String)) (fs : FileSystem) (p v : String),
    fs.lookup p = some v →
    ∃ w, ((runRestore policy entryOk root fs entries).1).lookup p = some w := by
  intro entries
  induction entries with
  | nil => intro fs p v h; exact ⟨v, h⟩
  | cons e rest ih =>
    intro fs p v h
    by_cases hok : entryOk e.1 = true
    · rw [runRestore, if_pos hok]
      obtain ⟨w, hw⟩ := applyEntry_keeps policy root fs e p v h
      exact ih _ p w hw
    · rw [runRestore, if_neg hok]
      exact ih fs p v h

theorem runRestore_outside (policy : ConflictPolicy) (entryOk : String → Bool)
    (root : String) (p : String) (hp : ∀ rel, p ≠ targetPath root rel) :
    ∀ (entries : List (String × String)) (fs : FileSystem),
    ((runRestore policy entryOk root fs entries).1).lookup p = fs.lookup p := by
  intro entries
  induction entries with
  | nil => intro fs; rfl
  | cons e rest ih =>
    intro fs
    by_cases hok : entryOk e.1 = true
    · rw [runRestore, if_pos hok, ih, applyEntry_outside policy root fs e p hp]
    · rw [runRestore, if_neg hok]
      exact ih fs

theorem runRestore_overwrite_preserves (entryOk : String → Bool) (root : String)
    (hok : ∀ x, entryOk x = true) (q w : String) :
    ∀ (entries : List (String × String)) (fs : FileSystem),
    (∀ e ∈ entries, targetPath root e.1 ≠ q) →
    fs.lookup q = some w →
    ((runRestore ConflictPolicy.overwrite entryOk root fs entries).1).lookup q = some w := by
  intro entries
  induction entries with
  | nil => intro fs _ h; exact h
  | cons b rest ih =>
    intro fs hb h
    rw [runRestore, if_pos (hok b.1)]
    refine ih _ (fun e he => hb e (List.mem_cons_of_mem b he)) ?_
    rw [applyEntry, lookup_fsWrite_ne (targetPath root b.1) b.2 q
      (fun hq => (hb b (List.mem_cons_self b rest)) hq.symm) fs]
    exact h

theorem runRestore_overwrite_applies (entryOk : String → Bool) (root : String)
    (hok : ∀ x, entryOk x = true) :
    ∀ (entries : List (String × String)) (fs : FileSystem),
    (entries.map (fun e => targetPath root e.1)).Nodup →
    ∀ e ∈ entries,
      ((runRestore ConflictPolicy.overwrite entryOk root fs entries).1).lookup
        (targetPath root e.1) = some e.2 := by
  intro entries
  induction entries with
  | nil => intro fs _ e he; exact absurd he (List.not_mem_nil e)
  | cons a rest ih =>
    intro fs hnd e he
    have hnd2 : (rest.map (fun e => targetPath root e.1)).Nodup :=
      (List.nodup_cons.mp (by simpa using hnd)).2
    have hha : targetPath root a.1 ∉ rest.map (fun e => targetPath root e.1) :=
      (List.nodup_cons.mp (by simpa using hnd)).1
    rw [runRestore, if_pos (hok a.1)]
    rcases List.mem_cons.mp he with rfl | hr
    · refine runRestore_overwrite_preserves entryOk root hok _ _ rest _ ?_ ?_
      · intro b hb hbq
        exact hha (hbq ▸ List.mem_map_of_mem (fun e => targetPath root e.1) hb)
      · rw [applyEntry]
        exact lookup_fsWrite_self _ _ fs
    · exact ih (applyEntry .overwrite root fs a) hnd2 e hr

/-- C7: a restore with conflict policy skip never overwrites any existing
file (every pre-existing binding keeps its value); with policy overwrite
every manifest entry is applied at its target path regardless of
pre-existence (entries succeeding and targeting distinct paths); and
under every policy the restore touches nothing outside the target root
and deletes nothing at all. -/
theorem restore_conflict_policies (root : String) (entryOk : String → Bool)
    (fs : FileSystem) (entries : List (String × String)) :
    (∀ p v, fs.lookup p = some v →
      ((runRestore ConflictPolicy.skip entryOk root fs entries).1).lookup p = some v) ∧
    ((∀ x, entryOk x = true) →
      (entries.map (fun e => targetPath root e.1)).Nodup →
      ∀ e ∈ entries,
        ((runRestore ConflictPolicy.overwrite entryOk root fs entries).1).lookup
          (targetPath root e.1) = some e.2) ∧
    (∀ (policy : ConflictPolicy) (p : String), (∀ rel, p ≠ targetPath root rel) →
      ((runRestore policy entryOk root fs entries).1).lookup p = fs.lookup p) ∧
    (∀ (policy : ConflictPolicy) (p v : String), fs.lookup p = some v →
      ∃ w, ((runRestore policy entryOk root fs entries).1).lookup p = some w) := by
  refine ⟨?_, ?_, ?_, ?_⟩
  · intro p v h
    exact runRestore_skip_keeps entryOk root entries fs p v h
  · intro hok hnd e he
    exact runRestore_overwrite_applies entryOk root hok entries fs hnd e he
  · intro policy p hp
    exact runRestore_outside policy entryOk root p hp entries fs
  · intro policy p v h
    exact runRestore_keeps policy entryOk root entries fs p v h

/-- C7 witness: restoring two entries over a target holding one of them:
skip keeps the old contents, overwrite replaces them and applies the new
entry, and a file outside the target root is untouched either way. -/
theorem restore_conflict_policies_witness :
    ((runRestore ConflictPolicy.skip (fun _ => true) "r"
        [("r/a", "old"), ("x", "keep")] [("a", "new"), ("b", "fresh")]).1).lookup
      "r/a" = some "old" ∧
    ((runRestore ConflictPolicy.overwrite (fun _ => true) "r"
        [("r/a", "old"), ("x", "keep")] [("a", "new"), ("b", "fresh")]).1).lookup
      "r/a" = some "new" ∧
    ((runRestore ConflictPolicy.overwrite (fun _ => true) "r"
        [("r/a", "old"), ("x", "keep")] [("a", "new"), ("b", "fresh")]).1).lookup
      "r/b" = some "fresh" ∧
    ((runRestore ConflictPolicy.overwrite (fun _ => true) "r"
        [("r/a", "old"), ("x", "keep")] [("a", "new"), ("b", "fresh")]).1).lookup
      "x" = some "keep" := by
  have h := restore_conflict_policies "r" (fun _ => true)
    [("r/a", "old"), ("x", "keep")] [("a", "new"), ("b", "fresh")]
  have houtside : ∀ rel, "x" ≠ targetPath "r" rel := by
    intro rel hcon
    have hlen := congrArg String.length hcon
    simp only [targetPath, String.length_append] at hlen
    have h1 : "x".length = 1 := rfl
    have h2 : "r".length = 1 := rfl
    have h3 : "/".length = 1 := rfl
    rw [h1, h2, h3] at hlen
    omega
  refine ⟨?_, ?_, ?_, ?_⟩
  · exact h.1 "r/a" "old" (by rfl)
  · have := h.2.1 (fun _ => rfl) (by decide) ("a", "new") (by simp)
    simpa [targetPath] using this
  · have := h.2.1 (fun _ => rfl) (by decide) ("b", "fresh") (by simp)
    simpa [targetPath] using this
  · have := h.2.2.1 ConflictPolicy.overwrite "x" houtside
    rw [this]
    rfl

/-! ## Error propagation, modelled from the design document §4.6 and §7 -/

/-- Modelled from the spec: §7 taxonomy, the validation and pre-flight
errors returned synchronously to the caller. -/
inductive PreflightError where
  | ValidationError : PreflightError
  | NotFound : PreflightError
  | DuplicateName : PreflightError
  | ManifestUnreadable : PreflightError
  | TargetNotWritable : PreflightError
deriving DecidableEq, Repr

/-- Modelled from the spec: §4.5 Status/Event Bus events. -/
inductive Event where
  | JobStarted : String → Event
  | JobFinished : JobRecord → Event
  | SetScheduleChanged : String → Event
deriving DecidableEq, Repr

/-- The engine-visible state: the Set Store, the append-only Job
Registry, and the events published on the bus so far. -/
structure SystemState where
  store : SetStore
  registry : List JobRecord
  bus : List Event
deriving DecidableEq, Repr

/-- A user-level request crossing the engine boundary. -/
inductive Request where
  | mkSet : BackupSet → Request
  | runOnce : String → Request
  | restoreReq : String → String → List (String × String) → ConflictPolicy → Request
deriving DecidableEq, Repr

/-- What the caller gets back: a synchronous pre-flight error, a
synchronous acknowledgement of a store mutation, or the finalized record
of a job that ran. -/
inductive Response where
  | preflight : PreflightError → Response
  | stored : Response
  | jobDone : JobRecord → Response
deriving DecidableEq, Repr

/-- The environment a request executes against: the archival primitive's
behaviour and the pre-flight conditions of the destination, the archive
manifest and the restore target. -/
structure Env where
  transfer : String → TransferResult
  destReachable : Bool
  manifestReadable : Bool
  targetWritable : Bool
  entryOk : String → Bool
  targetFs : FileSystem

/-- Modelled from the spec: §4.6 and §7 propagation policy: validation
and pre-flight errors (ValidationError, NotFound, DuplicateName,
ManifestUnreadable, TargetNotWritable) are returned synchronously and
never create a JobRecord; a job that runs always ends in a finalized
JobRecord appended to the registry and a JobFinished event on the bus,
whatever its outcome. -/
def processRequest (env : Env) (st : SystemState) : Request → Response × SystemState
  | Request.mkSet s =>
    if st.store.any (fun t => t.name == s.name) then
      (Response.preflight PreflightError.DuplicateName, st)
    else if s.sources.isEmpty then
      (Response.preflight PreflightError.ValidationError, st)
    else
      (Response.stored,
       ⟨st.store ++ [s], st.registry, st.bus ++ [Event.SetScheduleChanged s.name]⟩)
  | Request.runOnce name =>
    match st.store.find? (fun t => t.name == name) with
    | none => (Response.preflight PreflightError.NotFound, st)
    | some s =>
      (Response.jobDone (runBackup env.destReachable env.transfer s).1,
       ⟨st.store,
        st.registry ++ [(runBackup env.destReachable env.transfer s).1],
        st.bus ++ [Event.JobStarted s.name,
          Event.JobFinished (runBackup env.destReachable env.transfer s).1]⟩)
  | Request.restoreReq archName root entries policy =>
    if !env.manifestReadable then
      (Response.preflight PreflightError.ManifestUnreadable, st)
    else if !env.targetWritable then
      (Response.preflight PreflightError.TargetNotWritable, st)
    else
      let failed := (runRestore policy env.entryOk root env.targetFs entries).2
      let record : JobRecord :=
        ⟨archName,
         if failed.isEmpty then Outcome.Success else Outcome.PartialFailure failed, 0⟩
      (Response.jobDone record,
       ⟨st.store, st.registry ++ [record],
        st.bus ++ [Event.JobStarted archName, Event.JobFinished record]⟩)

/-- C5: every validation or pre-flight error is returned synchronously
and leaves the registry unchanged, so no JobRecord is ever created for
it; and every job that runs - whatever its outcome, PartialFailure and
Fatal included - ends as a finalized JobRecord in the registry with a
matching JobFinished event on the bus, never silently dropped. -/
theorem error_propagation (env : Env) (st : SystemState) (req : Request) :
    (∀ e, (processRequest env st req).1 = Response.preflight e →
      (processRequest env st req).2.registry = st.registry) ∧
    (∀ rec, (processRequest env st req).1 = Response.jobDone rec →
      rec ∈ (processRequest env st req).2.registry ∧
      Event.JobFinished rec ∈ (processRequest env st req).2.bus) := by
  cases req with
  | mkSet s =>
    by_cases h1 : st.store.any (fun t => t.name == s.name) = true
    · constructor
      · intro e _
        simp [processRequest, h1]
      · intro rec hrec
        simp [processRequest, h1] at hrec
    · by_cases h2 : s.sources.isEmpty = true
      · constructor
        · intro e _
          simp [processRequest, h1, h2]
        · intro rec hrec
          simp [processRequest, h1, h2] at hrec
      · constructor
        · intro e he
          simp [processRequest, h1, h2] at he
        · intro rec hrec
          simp [processRequest, h1, h2] at hrec
  | runOnce name =>
    cases hf : st.store.find? (fun t => t.name == name) with
    | none =>
      constructor
      · intro e _
        simp [processRequest, hf]
      · intro rec hrec
        simp [processRequest, hf] at hrec
    | some s =>
      constructor
      · intro e he
        simp [processRequest, hf] at he
      · intro rec hrec
        simp only [processRequest, hf, Response.jobDone.injEq] at hrec
        subst hrec
        constructor
        · simp [processRequest, hf]
        · simp [processRequest, hf]
  | restoreReq archName root entries policy =>
    by_cases h1 : env.manifestReadable = true
    · by_cases h2 : env.targetWritable = true
      · constructor
        · intro e he
          simp [processRequest, h1, h2] at he
        · intro rec hrec
          simp only [processRequest, h1, h2, Bool.not_true, Bool.false_eq_true, if_false,
            Response.jobDone.injEq] at hrec
          subst hrec
          constructor
          · simp [processRequest, h1, h2]
          · simp [processRequest, h1, h2]
      · constructor
        · intro e _
          simp [processRequest, h1, h2]
        · intro rec hrec
          simp [processRequest, h1, h2] at hrec
    · constructor
      · intro e _
        simp [processRequest, h1]
      · intro rec hrec
        simp [processRequest, h1] at hrec

/-- C5 witness: a runOnce against an unknown set name is rejected
synchronously with NotFound and creates no record, while a runOnce whose
destination is unreachable finalizes a Fatal JobRecord that reaches both
the registry and the bus. -/
theorem error_propagation_witness :
    (processRequest
        ⟨fun _ => TransferResult.ok 1, false, true, true, fun _ => true, []⟩
        ⟨[⟨"docs", ["/a"], "/dst", ScheduleDescriptor.Disabled, 2, true⟩], [], []⟩
        (Request.runOnce "nope")).2.registry = [] ∧
    (⟨"docs", Outcome.Fatal "destination unreachable", 0⟩ : JobRecord) ∈
      (processRequest
        ⟨fun _ => TransferResult.ok 1, false, true, true, fun _ => true, []⟩
        ⟨[⟨"docs", ["/a"], "/dst", ScheduleDescriptor.Disabled, 2, true⟩], [], []⟩
        (Request.runOnce "docs")).2.registry ∧
    Event.JobFinished ⟨"docs", Outcome.Fatal "destination unreachable", 0⟩ ∈
      (processRequest
        ⟨fun _ => TransferResult.ok 1, false, true, true, fun _ => true, []⟩
        ⟨[⟨"docs", ["/a"], "/dst", ScheduleDescriptor.Disabled, 2, true⟩], [], []⟩
        (Request.runOnce "docs")).2.bus := by
  have h1 := (error_propagation
    ⟨fun _ => TransferResult.ok 1, false, true, true, fun _ => true, []⟩
    ⟨[⟨"docs", ["/a"], "/dst", ScheduleDescriptor.Disabled, 2, true⟩], [], []⟩
    (Request.runOnce "nope")).1 PreflightError.NotFound rfl
  have h2 := (error_propagation
    ⟨fun _ => TransferResult.ok 1, false, true, true, fun _ => true, []⟩
    ⟨[⟨"docs", ["/a"], "/dst", ScheduleDescriptor.Disabled, 2, true⟩], [], []⟩
    (Request.runOnce "docs")).2
    ⟨"docs", Outcome.Fatal "destination unreachable", 0⟩ rfl
  exact ⟨h1, h2.1, h2.2⟩

end Fwbackups
